import Mathlib

/-!
Verification of the arm-go association-rule miner (FP-Growth).

The development shallowly embeds the program:
* the FP-tree and the mining passes as pure functions on lists,
* the master/worker parallel scheduler as a small-step transition system,
* the argument validation and top-level orchestration as functions over an
  explicit file-system oracle, with the performed file operations traced.

Machine integers are modelled as `Nat`; the Go `float64` thresholds are
modelled as exact rationals.
-/

/-- An item: the dense integer id assigned by the interner. -/
abbrev Item := Nat

/-- An itemset together with its support count (`itemsetWithCount` in Go). -/
abbrev IWC := List Item × Nat

/-- Functional model of the Go `fpTree`: the sequence of weighted path
insertions (`Insert(path, weight)` calls).  Every observation the miner makes
of the pointer-based Go tree — the per-item count table `counts`, the root
count, and the conditional pattern bases read off the header chains — is
determined by this insertion sequence, so the model identifies the tree with
it. -/
abbrev FPTreeM := List (List Item × Nat)

/-- Modelled from the spec: `root.count` accumulates the weight of every
insertion, so it equals the sum of the inserted weights. -/
def rootCount (t : FPTreeM) : Nat := (t.map (fun p => p.2)).sum

/-- Modelled from the spec: the tree's `counts` table receives `weight` once
per path element of every insertion, hence `counts[i]` is the sum over
insertions of `weight * (occurrences of i in the path)`.  This agrees with the
stated invariant that `counts[i]` is the sum of `count` over all nodes whose
item is `i`. -/
def countsOf (t : FPTreeM) (i : Item) : Nat :=
  (t.map (fun p => p.2 * p.1.count i)).sum

/-- The keys of the Go header table `itemList`: the items having at least one
node, i.e. occurring in some inserted path.  Go iterates the map in an
unspecified order; the model fixes first-occurrence order (claims about the
mining output are stated as multisets, so the choice is immaterial). -/
def treeItems (t : FPTreeM) : List Item :=
  ((t.map (fun p => p.1)).flatten).dedup

/-- Direct embedding of `frequentItemsInTree` (src/unnamed/part_001 lines
172-180): the items of the header table whose in-tree count is strictly
greater than `minCount`. -/
def frequentItemsInTree (t : FPTreeM) (minCount : Nat) : List Item :=
  (treeItems t).filter (fun i => decide (minCount < countsOf t i))

/-- Modelled from the spec (`appendSorted`, spec §9): the sequence equal to
`xs ⊕ i` re-sorted by the interner's comparator, here the order on ids. -/
def appendSorted (xs : List Item) (i : Item) : List Item :=
  match xs with
  | [] => [i]
  | x :: rest => if i < x then i :: x :: rest else x :: appendSorted rest i

/-- Modelled from the spec (conditional pattern base, spec §4.3 and glossary):
for each occurrence of `i` in an inserted path, the strict prefix of the path
before that occurrence, weighted by the insertion's weight.  Grouping these
pointwise contributions by the node (distinct prefix) they belong to yields
exactly the node-walk of the Go header chain; both aggregate to the same
prefix-weight function, hence to the same tree observations. -/
def condPathsOne (i : Item) (pre path : List Item) (w : Nat) :
    List (List Item × Nat) :=
  match path with
  | [] => []
  | x :: rest =>
      (if x = i then [(pre, w)] else []) ++ condPathsOne i (pre ++ [x]) rest w

/-- Modelled from the spec: the conditional FP-tree of item `i`, as the list
of weighted path insertions described in §4.3 (missing `makeConditionalTree`
source). -/
def makeConditionalTree (t : FPTreeM) (i : Item) : FPTreeM :=
  t.flatMap (fun p => condPathsOne i [] p.1 p.2)

/-- An upper bound on the length of the paths inserted into the tree. -/
def depthBound (t : FPTreeM) : Nat := t.foldr (fun p m => max p.1.length m) 0

/-- Fuel-indexed FP-Growth.  Modelled from the spec (§4.3, missing `fpGrowth`
source): for each item frequent in the tree (the strict `>` threshold of
`frequentItemsInTree`), emit the extended itemset with the conditional tree's
root count, then recurse on the conditional tree. -/
def fpGrowthF : Nat → FPTreeM → List Item → Nat → List IWC
  | 0, _, _, _ => []
  | fuel+1, t, itemset, minCount =>
    (frequentItemsInTree t minCount).flatMap (fun i =>
      (appendSorted itemset i, rootCount (makeConditionalTree t i)) ::
        fpGrowthF fuel (makeConditionalTree t i) (appendSorted itemset i)
          minCount)

/-- Sequential FP-Growth: the fuel `depthBound t` suffices because each
conditional tree's paths are strictly shorter than the path they come from
(proved below as `fpGrowth_fix`). -/
def fpGrowth (t : FPTreeM) (itemset : List Item) (minCount : Nat) :
    List IWC :=
  fpGrowthF (depthBound t) t itemset minCount

theorem length_le_depthBound {t : FPTreeM} {p : List Item × Nat} (h : p ∈ t) :
    p.1.length ≤ depthBound t := by
  induction t with
  | nil => cases h
  | cons q rest ih =>
      rcases List.mem_cons.1 h with h | h
      · subst h; exact le_max_left _ _
      · exact le_trans (ih h) (le_max_right _ _)

theorem depthBound_le {t : FPTreeM} {B : Nat}
    (h : ∀ p ∈ t, p.1.length ≤ B) : depthBound t ≤ B := by
  induction t with
  | nil => exact Nat.zero_le _
  | cons q rest ih =>
      refine max_le (h q (List.mem_cons_self _ _)) (ih ?_)
      intro p hp; exact h p (List.mem_cons_of_mem _ hp)

theorem condPathsOne_length {i : Item} {pre path : List Item} {w : Nat}
    {q : List Item × Nat} (h : q ∈ condPathsOne i pre path w) :
    q.1.length + 1 ≤ pre.length + path.length := by
  induction path generalizing pre with
  | nil => cases h
  | cons x rest ih =>
      simp only [condPathsOne, List.mem_append] at h
      rcases h with h | h
      · have hq : q = (pre, w) := by split at h <;> simp_all
        subst hq
        simp only [List.length_cons]
        omega
      · have := ih h
        simp only [List.length_append, List.length_cons,
          List.length_nil] at this ⊢
        omega

theorem depthBound_cond (t : FPTreeM) (i : Item) :
    depthBound (makeConditionalTree t i) ≤ depthBound t - 1 := by
  refine depthBound_le ?_
  intro q hq
  rcases List.mem_flatMap.1 hq with ⟨p, hp, hq'⟩
  have h1 := condPathsOne_length hq'
  have h2 := length_le_depthBound hp
  simp only [List.length_nil, Nat.zero_add] at h1
  omega

theorem treeItems_nil_of_depth_zero {t : FPTreeM} (h : depthBound t = 0) :
    treeItems t = [] := by
  have : (t.map (fun p => p.1)).flatten = [] := by
    rw [List.flatten_eq_nil_iff]
    intro l hl
    rcases List.mem_map.1 hl with ⟨p, hp, rfl⟩
    have := length_le_depthBound hp
    rw [h, Nat.le_zero, List.length_eq_zero] at this
    exact this
  simp [treeItems, this]

theorem frequentItems_nil_of_depth_zero {t : FPTreeM} {mc : Nat}
    (h : depthBound t = 0) : frequentItemsInTree t mc = [] := by
  simp [frequentItemsInTree, treeItems_nil_of_depth_zero h]

theorem fpGrowthF_mono (f : Nat) :
    ∀ (g : Nat) (t : FPTreeM) (itemset : List Item) (mc : Nat),
      depthBound t ≤ f → depthBound t ≤ g →
      fpGrowthF f t itemset mc = fpGrowthF g t itemset mc := by
  induction f with
  | zero =>
      intro g t itemset mc hf hg
      have h0 : depthBound t = 0 := Nat.le_zero.1 hf
      cases g with
      | zero => rfl
      | succ g' =>
          simp [fpGrowthF, frequentItems_nil_of_depth_zero h0]
  | succ f' ih =>
      intro g t itemset mc hf hg
      cases g with
      | zero =>
          have h0 : depthBound t = 0 := Nat.le_zero.1 hg
          simp [fpGrowthF, frequentItems_nil_of_depth_zero h0]
      | succ g' =>
          simp only [fpGrowthF]
          refine List.flatMap_congr ?_
          intro i _
          have hc : depthBound (makeConditionalTree t i) ≤ f' := by
            have := depthBound_cond t i; omega
          have hc' : depthBound (makeConditionalTree t i) ≤ g' := by
            have := depthBound_cond t i; omega
          rw [ih g' (makeConditionalTree t i) (appendSorted itemset i) mc hc
            hc']

/-- The recursion equation of FP-Growth. -/
theorem fpGrowth_fix (t : FPTreeM) (itemset : List Item) (mc : Nat) :
    fpGrowth t itemset mc =
      (frequentItemsInTree t mc).flatMap (fun i =>
        (appendSorted itemset i, rootCount (makeConditionalTree t i)) ::
          fpGrowth (makeConditionalTree t i) (appendSorted itemset i) mc) := by
  unfold fpGrowth
  cases hd : depthBound t with
  | zero =>
      simp [fpGrowthF, frequentItems_nil_of_depth_zero hd]
  | succ d =>
      simp only [fpGrowthF]
      refine List.flatMap_congr ?_
      intro i _
      have hc : depthBound (makeConditionalTree t i) ≤ d := by
        have := depthBound_cond t i; omega
      rw [fpGrowthF_mono d _ _ _ _ hc le_rfl]

theorem condPathsOne_weightSum (i : Item) (path : List Item) (w : Nat) :
    ∀ pre, ((condPathsOne i pre path w).map (fun p => p.2)).sum =
      w * path.count i := by
  induction path with
  | nil => intro pre; simp [condPathsOne]
  | cons x rest ih =>
      intro pre
      by_cases hx : x = i
      · subst hx
        simp [condPathsOne, ih, List.count_cons, Nat.mul_add, Nat.add_comm]
      · simp [condPathsOne, hx, ih, List.count_cons, Ne.symm hx]

/-- The conditional tree's root count equals the in-tree count of the
conditioning item (spec §4.3 step 2). -/
theorem rootCount_cond (t : FPTreeM) (i : Item) :
    rootCount (makeConditionalTree t i) = countsOf t i := by
  unfold rootCount countsOf makeConditionalTree
  induction t with
  | nil => rfl
  | cons p rest ih =>
      simp only [List.flatMap_cons, List.map_append, List.sum_append,
        List.map_cons, List.sum_cons, ih]
      rw [condPathsOne_weightSum]

/-! ### The two input passes and the initial tree (src/arm.go) -/

/-- An input token (one comma-separated field of a line). -/
abbrev Token := String

/-- The transactions file: one transaction (list of tokens) per line. -/
abbrev Dataset := List (List Token)

/-- Modelled from the spec (missing Itemizer source): interning appends each
token not seen before, so ids are dense indices in first-encounter order. -/
def internAll (acc : List Token) (line : List Token) : List Token :=
  line.foldl (fun a tok => if a.contains tok then a else a ++ [tok]) acc

/-- The interner state after pass 1: the tokens in first-encounter order;
the id of a token is its index. -/
def buildItemizer (ds : Dataset) : List Token := ds.foldl internAll []

def tokenIdFrom : List Token → Token → Nat → Option Nat
  | [], _, _ => none
  | s :: rest, tok, k =>
      if s = tok then some k else tokenIdFrom rest tok (k+1)

/-- The id the (frozen, post-pass-1) interner assigns to a token. -/
def tokenId (itz : List Token) (tok : Token) : Option Nat :=
  tokenIdFrom itz tok 0

/-- Pass 1 frequency of a token.  Modelled from the spec: `forEachItem`
counts each distinct token once per transaction (spec §8 scenario 6 pins
`frequency[a] = 1` for the line `a,a,b`). -/
def freqTok (ds : Dataset) (tok : Token) : Nat :=
  (ds.filter (fun line => line.contains tok)).length

/-- Pass 1 frequency of an item id (`frequency.get`, 0 for unknown ids). -/
def freqItem (ds : Dataset) (itz : List Token) (i : Item) : Nat :=
  match itz[i]? with
  | some tok => freqTok ds tok
  | none => 0

/-- Embedding of `minCount := max(1, int(math.Ceil(minSupport *
float64(numTransactions))))` (src/arm.go line 153), with the float
arithmetic modelled exactly over the rationals. -/
def minCountOf (minSupport : Rat) (n : Nat) : Nat :=
  max 1 (Int.toNat (Int.ceil (minSupport * (n : Rat))))

/-- Modelled from the spec (missing `Itemizer.filter` source): translate the
tokens to Items and drop those failing the predicate, preserving order. -/
def filterLine (itz : List Token) (keep : Item → Bool) (line : List Token) :
    List Item :=
  line.filterMap (fun tok =>
    match tokenId itz tok with
    | some i => if keep i then some i else none
    | none => none)

/-- The `sort.SliceStable` comparator of `generateFrequentItemsets`
(src/arm.go lines 168-175): `a` before `b` iff its global frequency is
strictly greater, ties broken by the interner's comparator (the order on
ids). -/
def ltCode (freq : Nat → Nat) (a b : Nat) : Bool :=
  if freq a = freq b then decide (a < b) else decide (freq b < freq a)

/-- A stable insertion sort with a strict `less` comparator: an element is
placed after every already-sorted element that compares strictly before it,
matching the stability contract of Go's `sort.SliceStable`. -/
def insertStable (lt : Item → Item → Bool) (x : Item) :
    List Item → List Item
  | [] => [x]
  | y :: ys => if lt y x then y :: insertStable lt x ys else x :: y :: ys

def stableSort (lt : Item → Item → Bool) : List Item → List Item
  | [] => []
  | x :: xs => insertStable lt x (stableSort lt xs)

/-- The pass-2 sort of a filtered transaction. -/
def sortTrans (freq : Item → Nat) (l : List Item) : List Item :=
  stableSort (ltCode freq) l

/-- Embedding of one iteration of the pass-2 scan loop (src/arm.go lines
157-177): filter the transaction by global frequency, skip it when nothing
remains, otherwise sort and insert with weight 1. -/
def processTransaction (itz : List Token) (freq : Item → Nat)
    (minCount : Nat) (t : FPTreeM) (line : List Token) : FPTreeM :=
  let transaction := filterLine itz (fun i => decide (minCount ≤ freq i)) line
  if transaction.isEmpty then t
  else t ++ [(sortTrans freq transaction, 1)]

/-- The initial FP-tree built by pass 2. -/
def buildTree (ds : Dataset) (itz : List Token) (freq : Item → Nat)
    (minCount : Nat) : FPTreeM :=
  ds.foldl (processTransaction itz freq minCount) []

/-- Embedding of `generateFrequentItemsets` (src/arm.go lines 146-183): pass
2 over the same file followed by sequential FP-Growth. -/
def generateFrequentItemsetsM (ds : Dataset) (minSupport : Rat)
    (itz : List Token) (freq : Item → Nat) (numTransactions : Nat) :
    List IWC :=
  let minCount := minCountOf minSupport numTransactions
  fpGrowth (buildTree ds itz freq minCount) [] minCount

/-- Both passes composed: the frequent-itemset output of the sequential
package path for a dataset. -/
def mineDatasetSeq (ds : Dataset) (minSupport : Rat) : List IWC :=
  generateFrequentItemsetsM ds minSupport (buildItemizer ds)
    (freqItem ds (buildItemizer ds)) ds.length

/-- The support of an itemset: the number of transactions containing every
item of the set (spec glossary). -/
def supportOfSet (ds : Dataset) (itz : List Token) (S : List Item) : Nat :=
  (ds.filter (fun line => S.all (fun i =>
    match itz[i]? with
    | some tok => line.contains tok
    | none => false))).length

/-- The non-strict sort key of pass 2 as the spec words it: decreasing
global frequency, ties broken by the interner's order on ids. -/
def keyLE (freq : Nat → Nat) (a b : Nat) : Prop :=
  freq b < freq a ∨ (freq a = freq b ∧ a ≤ b)

instance (freq : Nat → Nat) (a b : Nat) : Decidable (keyLE freq a b) := by
  unfold keyLE; infer_instance


theorem keyLE_total (freq : Nat → Nat) (a b : Nat) :
    keyLE freq a b ∨ keyLE freq b a := by
  unfold keyLE
  omega

theorem keyLE_antisymm {freq : Nat → Nat} {a b : Nat}
    (h1 : keyLE freq a b) (h2 : keyLE freq b a) : a = b := by
  unfold keyLE at h1 h2
  omega

theorem keyLE_trans {freq : Nat → Nat} {a b c : Nat}
    (h1 : keyLE freq a b) (h2 : keyLE freq b c) : keyLE freq a c := by
  unfold keyLE at h1 h2 ⊢
  omega

instance (freq : Item → Nat) : IsAntisymm Item (keyLE freq) :=
  ⟨fun _ _ => keyLE_antisymm⟩

/-- The src comparator decides exactly the strict part of the spec's key
order. -/
theorem ltCode_iff (freq : Nat → Nat) (a b : Nat) :
    ltCode freq a b = true ↔
      (freq b < freq a ∨ (freq a = freq b ∧ a < b)) := by
  unfold ltCode
  by_cases h : freq a = freq b <;> simp [h]

theorem keyLE_of_ltCode_false {freq : Nat → Nat} {x y : Nat}
    (h : ltCode freq y x = false) : keyLE freq x y := by
  unfold ltCode at h
  unfold keyLE
  by_cases he : freq y = freq x <;> simp [he] at h <;> omega

theorem keyLE_of_ltCode_true {freq : Nat → Nat} {x y : Nat}
    (h : ltCode freq x y = true) : keyLE freq x y := by
  unfold ltCode at h
  unfold keyLE
  by_cases he : freq x = freq y <;> simp [he] at h <;> omega

theorem insertStable_perm (lt : Item → Item → Bool) (x : Item)
    (l : List Item) : List.Perm (insertStable lt x l) (x :: l) := by
  induction l with
  | nil => exact List.Perm.refl _
  | cons y ys ih =>
      unfold insertStable
      split
      · exact (ih.cons y).trans (List.Perm.swap x y ys)
      · exact List.Perm.refl _

theorem stableSort_perm (lt : Item → Item → Bool) (l : List Item) :
    List.Perm (stableSort lt l) l := by
  induction l with
  | nil => exact List.Perm.refl _
  | cons x xs ih =>
      exact (insertStable_perm lt x (stableSort lt xs)).trans (ih.cons x)

theorem insertStable_sorted {freq : Item → Nat} {x : Item} {l : List Item}
    (hs : List.Sorted (keyLE freq) l) :
    List.Sorted (keyLE freq) (insertStable (ltCode freq) x l) := by
  induction l with
  | nil => simp [insertStable]
  | cons y ys ih =>
      rcases List.sorted_cons.1 hs with ⟨hy, hys⟩
      unfold insertStable
      split
      · rename_i hlt
        refine List.sorted_cons.2 ⟨?_, ih hys⟩
        intro z hz
        rcases List.mem_cons.1
            ((insertStable_perm (ltCode freq) x ys).mem_iff.1 hz) with
          rfl | hz'
        · exact keyLE_of_ltCode_true hlt
        · exact hy z hz'
      · rename_i hlt
        rw [Bool.not_eq_true] at hlt
        refine List.sorted_cons.2 ⟨?_, hs⟩
        intro z hz
        have hxy : keyLE freq x y := keyLE_of_ltCode_false hlt
        rcases List.mem_cons.1 hz with rfl | hz'
        · exact hxy
        · exact keyLE_trans hxy (hy z hz')

theorem stableSort_sorted (freq : Item → Nat) (l : List Item) :
    List.Sorted (keyLE freq) (stableSort (ltCode freq) l) := by
  induction l with
  | nil => simp [stableSort]
  | cons x xs ih => exact insertStable_sorted ih

/-! ### Rule generation (modelled from the spec §4.5; rules source missing) -/

structure RuleM where
  antecedent : List Item
  consequent : List Item
  support : Rat
  confidence : Rat
  lift : Rat
deriving DecidableEq

/-- Set equality of itemsets: the index key of the spec's rule generator. -/
def setEq (a b : List Item) : Bool :=
  a.all (fun x => b.contains x) && b.all (fun x => a.contains x)

/-- Modelled from the spec: support lookup indexed by item-set equality;
like `ItemCount.get`, a set absent from the collection reads as 0. -/
def supportLookup (itemsets : List IWC) (s : List Item) : Nat :=
  match itemsets.find? (fun iw => setEq iw.1 s) with
  | some iw => iw.2
  | none => 0

/-- Modelled from the spec (§4.5, missing `generateRules` source): the rules
generated from one frequent itemset `I`: every non-empty proper subset `A` is
an antecedent with consequent `C = I \ A`, kept when the confidence reaches
`minConf` and, if the lift filter is enabled (`minLift > 0`), the lift
reaches `minLift`. -/
def genRulesFor (lookup : List Item → Nat) (n : Nat)
    (minConf minLift : Rat) (iw : IWC) : List RuleM :=
  if iw.1.length < 2 then [] else
  iw.1.sublists.filterMap (fun A =>
    if A.isEmpty then none else
    if A.length = iw.1.length then none else
    let C := iw.1.filter (fun x => !(A.contains x))
    let conf : Rat := (iw.2 : Rat) / (lookup A : Rat)
    if conf < minConf then none else
    let lf : Rat := conf / ((lookup C : Rat) / (n : Rat))
    if 0 < minLift ∧ lf < minLift then none else
    some ⟨A, C, (iw.2 : Rat) / (n : Rat), conf, lf⟩)

/-- Modelled from the spec: the chunked rule output, one chunk per frequent
itemset. -/
def generateRulesM (itemsets : List IWC) (n : Nat) (minConf minLift : Rat) :
    List (List RuleM) :=
  itemsets.map (genRulesFor (supportLookup itemsets) n minConf minLift)

/-! ### Arguments, validation, orchestration (src/unnamed/part_000, src/arm.go) -/

/-- The error values of the package (src/unnamed/part_000 lines 22-26), plus
opaque I/O errors. -/
inductive ArmError
  | minSupportOutOfRange
  | minConfidenceOutOfRange
  | minLiftOutOfRange
  | ioErr (code : Nat)
deriving DecidableEq

/-- The `Arguments` record (src/unnamed/part_000 lines 28-44), thresholds
modelled as exact rationals. -/
structure ArgumentsM where
  input : String
  output : String
  minSupport : Rat
  minConfidence : Rat
  minLift : Rat
  itemsetsPath : String

/-- Embedding of `Arguments.Validate` (src/unnamed/part_000 lines 46-57). -/
def ValidateM (a : ArgumentsM) : Option ArmError :=
  if a.minSupport < 0 ∨ 1 < a.minSupport then some .minSupportOutOfRange
  else if a.minConfidence < 0 ∨ 1 < a.minConfidence then
    some .minConfidenceOutOfRange
  else if a.minLift ≠ 0 ∧ a.minLift < 1 then some .minLiftOutOfRange
  else none

/-- A file operation attempted by the orchestrator. -/
inductive FileOp
  | openInput
  | createItemsets
  | createRules
deriving DecidableEq

/-- The file-system oracle: the outcome of scanning the input file and of
creating resp. writing each output file.  The `Nat` codes stand for the
opaque Go `error` values. -/
structure World where
  inputLines : Except Nat Dataset
  itemsetsCreate : Except Nat Unit
  itemsetsWrite : Except Nat Unit
  rulesCreate : Except Nat Unit
  rulesWrite : Except Nat Unit

/-- Embedding of `countItems` (src/arm.go lines 120-144): scan the input,
interning and counting; an open or scan failure is returned unchanged. -/
def countItemsM (w : World) :
    Except Nat (List Token × (Item → Nat) × Nat) :=
  match w.inputLines with
  | .error e => .error e
  | .ok ds =>
      .ok (buildItemizer ds, freqItem ds (buildItemizer ds), ds.length)

/-- Embedding of `writeItemsets` (src/arm.go lines 34-63), the text
rendering abstracted: a create or write failure aborts and is returned; on
success the number of written records is reported. -/
def writeItemsetsM (create wr : Except Nat Unit) (itemsets : List IWC) :
    Except Nat Nat :=
  match create with
  | .error e => .error e
  | .ok _ =>
    match wr with
    | .error e => .error e
    | .ok _ => .ok itemsets.length

/-- Embedding of `writeRules` (src/arm.go lines 65-110), analogous. -/
def writeRulesM (create wr : Except Nat Unit) (rules : List (List RuleM)) :
    Except Nat Nat :=
  match create with
  | .error e => .error e
  | .ok _ =>
    match wr with
    | .error e => .error e
    | .ok _ => .ok (rules.map (fun c => c.length)).sum

/-- Embedding of `MineAssociationRules` (src/arm.go lines 185-229).  The
trace records the file operations attempted, in order; the input file is
opened once per pass.  Lines 213 and 225 of the source call `writeItemsets`
and `writeRules` but discard their error results; the two discarded `let`
bindings model exactly that, so the function answers `.ok` regardless of
write failures. -/
def MineAssociationRulesM (w : World) (a : ArgumentsM) :
    Except ArmError (List IWC × List (List RuleM)) × List FileOp :=
  match ValidateM a with
  | some e => (.error e, [])
  | none =>
    match w.inputLines with
    | .error e => (.error (.ioErr e), [.openInput])
    | .ok ds =>
      let itz := buildItemizer ds
      let freq := freqItem ds itz
      let itemsets :=
        generateFrequentItemsetsM ds a.minSupport itz freq ds.length
      let rules := generateRulesM itemsets ds.length a.minConfidence a.minLift
      let _discardedItemsetsErr :=
        if a.itemsetsPath.isEmpty then Except.ok 0
        else writeItemsetsM w.itemsetsCreate w.itemsetsWrite itemsets
      let _discardedRulesErr := writeRulesM w.rulesCreate w.rulesWrite rules
      let ops1 := if a.itemsetsPath.isEmpty then ([] : List FileOp)
        else [FileOp.createItemsets]
      (.ok (itemsets, rules),
        [FileOp.openInput, FileOp.openInput] ++ ops1 ++ [FileOp.createRules])

/-! ### The parallel master/worker scheduler (src/unnamed/part_001) -/

/-- A `workerTask` (src/unnamed/part_001 lines 119-123). -/
structure WTaskM where
  tree : FPTreeM
  item : Item
  itemset : List Item
deriving DecidableEq

/-- A `masterTask` (src/unnamed/part_001 lines 125-129). -/
structure MTaskM where
  tree : FPTreeM
  itemset : List Item
  items : List Item
deriving DecidableEq

/-- The master goroutine's control state: inside the scheduling loop with
its LIFO task stack (top at the head; Go appends at the slice's end) and the
`outstandingJobs` counter, or past the loop having closed `toWorker`, or
panicked.  `crashed` models the Go panic of evaluating `lastTask.items[0]`
on an empty `items` slice (line 144). -/
inductive MState
  | loop (tasks : List MTaskM) (outstanding : Nat)
  | closed
  | crashed
deriving DecidableEq

/-- A configuration of the whole process system of `parallelFpGrowth`
(src/unnamed/part_001 lines 200-222): the master, the bounded channels
`toWorker` (`wc`) and `fromWorker` (`mc`) as FIFO queues, and the symmetric
worker pool split by phase — `idle` workers blocked receiving, `busy`
workers computing a task, `pend` workers blocked sending their result.  The
unbuffered `output` channel is drained by an always-ready collector
goroutine, so emitting on it is modelled as appending to `out` directly. -/
structure Sys where
  mstate : MState
  wc : List WTaskM
  wcClosed : Bool
  idle : Nat
  busy : Multiset WTaskM
  pend : Multiset MTaskM
  mc : List MTaskM
  out : Multiset IWC
deriving DecidableEq

/-- The itemset a worker emits for a task (src/unnamed/part_001 lines
189-194). -/
def wtHead (w : WTaskM) : IWC :=
  (appendSorted w.itemset w.item,
    rootCount (makeConditionalTree w.tree w.item))

/-- The `masterTask` a worker sends back (lines 195-196). -/
def wtResult (minCount : Nat) (w : WTaskM) : MTaskM :=
  ⟨makeConditionalTree w.tree w.item, appendSorted w.itemset w.item,
    frequentItemsInTree (makeConditionalTree w.tree w.item) minCount⟩

/-- One interleaving step of the process system, with channel capacities
`CW` (toWorker) and `CM` (fromWorker).  `dispatch`/`absorb` are the two arms
of the master's `select` (lines 147-160), `finish` its loop exit and
`close(toWorker)` (line 169), `crash` the panic on an empty top task.
`wrecv`, `wcompute`, `wsend`, `wexit` are the worker phases (lines 182-198);
`wcompute` also performs the rendezvous with the always-ready collector. -/
inductive Step (minCount CW CM : Nat) : Sys → Sys → Prop
  | dispatch (t : MTaskM) (ts : List MTaskM) (n : Nat) (wc : List WTaskM)
      (idle : Nat) (busy : Multiset WTaskM) (pend : Multiset MTaskM)
      (mcq : List MTaskM) (out : Multiset IWC) (i : Item)
      (rest : List Item) :
      t.items = i :: rest → wc.length < CW →
      Step minCount CW CM
        ⟨.loop (t :: ts) n, wc, false, idle, busy, pend, mcq, out⟩
        ⟨.loop (if rest.isEmpty then ts else ⟨t.tree, t.itemset, rest⟩ :: ts)
            (n + 1),
          wc ++ [⟨t.tree, i, t.itemset⟩], false, idle, busy, pend, mcq, out⟩
  | absorb (tasks : List MTaskM) (n : Nat) (wc : List WTaskM) (idle : Nat)
      (busy : Multiset WTaskM) (pend : Multiset MTaskM) (m : MTaskM)
      (mcq : List MTaskM) (out : Multiset IWC) :
      Step minCount CW CM
        ⟨.loop tasks n, wc, false, idle, busy, pend, m :: mcq, out⟩
        ⟨.loop (if m.items.isEmpty then tasks else m :: tasks) (n - 1), wc,
          false, idle, busy, pend, mcq, out⟩
  | finish (wc : List WTaskM) (idle : Nat) (busy : Multiset WTaskM)
      (pend : Multiset MTaskM) (mcq : List MTaskM) (out : Multiset IWC) :
      Step minCount CW CM
        ⟨.loop [] 0, wc, false, idle, busy, pend, mcq, out⟩
        ⟨.closed, wc, true, idle, busy, pend, mcq, out⟩
  | crash (t : MTaskM) (ts : List MTaskM) (n : Nat) (wc : List WTaskM)
      (idle : Nat) (busy : Multiset WTaskM) (pend : Multiset MTaskM)
      (mcq : List MTaskM) (out : Multiset IWC) :
      t.items = [] →
      Step minCount CW CM
        ⟨.loop (t :: ts) n, wc, false, idle, busy, pend, mcq, out⟩
        ⟨.crashed, wc, false, idle, busy, pend, mcq, out⟩
  | wrecv (ms : MState) (w : WTaskM) (wcq : List WTaskM) (b : Bool)
      (idle : Nat) (busy : Multiset WTaskM) (pend : Multiset MTaskM)
      (mcq : List MTaskM) (out : Multiset IWC) :
      Step minCount CW CM
        ⟨ms, w :: wcq, b, idle + 1, busy, pend, mcq, out⟩
        ⟨ms, wcq, b, idle, w ::ₘ busy, pend, mcq, out⟩
  | wcompute (ms : MState) (wcq : List WTaskM) (b : Bool) (idle : Nat)
      (w : WTaskM) (busyRest : Multiset WTaskM) (pend : Multiset MTaskM)
      (mcq : List MTaskM) (out : Multiset IWC) :
      Step minCount CW CM
        ⟨ms, wcq, b, idle, w ::ₘ busyRest, pend, mcq, out⟩
        ⟨ms, wcq, b, idle, busyRest, wtResult minCount w ::ₘ pend, mcq,
          wtHead w ::ₘ out⟩
  | wsend (ms : MState) (wcq : List WTaskM) (b : Bool) (idle : Nat)
      (busy : Multiset WTaskM) (m : MTaskM) (pendRest : Multiset MTaskM)
      (mcq : List MTaskM) (out : Multiset IWC) :
      mcq.length < CM →
      Step minCount CW CM
        ⟨ms, wcq, b, idle, busy, m ::ₘ pendRest, mcq, out⟩
        ⟨ms, wcq, b, idle + 1, busy, pendRest, mcq ++ [m], out⟩
  | wexit (ms : MState) (idle : Nat) (busy : Multiset WTaskM)
      (pend : Multiset MTaskM) (mcq : List MTaskM) (out : Multiset IWC) :
      Step minCount CW CM
        ⟨ms, [], true, idle + 1, busy, pend, mcq, out⟩
        ⟨ms, [], true, idle, busy, pend, mcq, out⟩

/-- The initial configuration of `parallelFpGrowth` (lines 200-218): the
master has pushed the initial task (line 133), all `W` workers are idle. -/
def initSys (tree : FPTreeM) (minCount W : Nat) : Sys :=
  ⟨.loop [⟨tree, [], frequentItemsInTree tree minCount⟩] 0, [], false, W, 0,
    0, [], 0⟩

/-- All work done: master past the loop, channels drained, every worker
exited. -/
def Terminal (s : Sys) : Prop :=
  s.mstate = .closed ∧ s.wc = [] ∧ s.idle = 0 ∧ s.busy = 0 ∧ s.pend = 0 ∧
    s.mc = []

instance (s : Sys) : Decidable (Terminal s) := by
  unfold Terminal; infer_instance

def Reachable (minCount CW CM : Nat) : Sys → Sys → Prop :=
  Relation.ReflTransGen (Step minCount CW CM)

/-- Every itemset FP-Growth eventually emits for the subproblem of a
worker task: its own head plus the whole recursion below it. -/
def wtEmit (minCount : Nat) (w : WTaskM) : Multiset IWC :=
  Multiset.ofList (wtHead w ::
    fpGrowth (makeConditionalTree w.tree w.item)
      (appendSorted w.itemset w.item) minCount)

/-- Every itemset FP-Growth eventually emits for the subproblems of a
master task: one worker subproblem per remaining item. -/
def mtEmit (minCount : Nat) (t : MTaskM) : Multiset IWC :=
  Multiset.ofList (t.items.flatMap (fun i =>
    wtHead ⟨t.tree, i, t.itemset⟩ ::
      fpGrowth (makeConditionalTree t.tree i) (appendSorted t.itemset i)
        minCount))

theorem mtEmit_items_nil {mc : Nat} {t : MTaskM} (h : t.items = []) :
    mtEmit mc t = 0 := by
  simp [mtEmit, h]

theorem mtEmit_items_cons {mc : Nat} {t : MTaskM} {i : Item}
    {rest : List Item} (h : t.items = i :: rest) :
    mtEmit mc t =
      wtEmit mc ⟨t.tree, i, t.itemset⟩ +
        mtEmit mc ⟨t.tree, t.itemset, rest⟩ := by
  simp only [mtEmit, wtEmit, h, List.flatMap_cons, wtHead]
  rw [← Multiset.coe_add]

/-- Unfolding one worker computation: its head plus the emissions of the
task it sends back account for its whole subproblem. -/
theorem wtEmit_unfold (mc : Nat) (w : WTaskM) :
    wtEmit mc w = wtHead w ::ₘ mtEmit mc (wtResult mc w) := by
  simp only [wtEmit, mtEmit, wtResult]
  rw [← Multiset.cons_coe, Multiset.cons_inj_right]
  exact congrArg Multiset.ofList (fpGrowth_fix _ _ _)

/-- The initial master task accounts for the whole sequential mining
output. -/
theorem mtEmit_init (tree : FPTreeM) (mc : Nat) :
    mtEmit mc ⟨tree, [], frequentItemsInTree tree mc⟩ =
      Multiset.ofList (fpGrowth tree [] mc) := by
  simp only [mtEmit]
  exact (congrArg Multiset.ofList (fpGrowth_fix tree [] mc)).symm

def listEmitW (mc : Nat) (l : List WTaskM) : Multiset IWC :=
  (l.map (wtEmit mc)).sum

def listEmitM (mc : Nat) (l : List MTaskM) : Multiset IWC :=
  (l.map (mtEmit mc)).sum

def msetEmitW (mc : Nat) (s : Multiset WTaskM) : Multiset IWC :=
  (s.map (wtEmit mc)).sum

def msetEmitM (mc : Nat) (s : Multiset MTaskM) : Multiset IWC :=
  (s.map (mtEmit mc)).sum

def tasksOf : MState → List MTaskM
  | .loop ts _ => ts
  | _ => []

/-- The conserved quantity: everything already collected plus everything
the pending work will still emit. -/
def Phi (mc : Nat) (s : Sys) : Multiset IWC :=
  s.out + listEmitM mc (tasksOf s.mstate) + listEmitW mc s.wc +
    msetEmitW mc s.busy + msetEmitM mc s.pend + listEmitM mc s.mc

/-- The inductive invariant of the scheduler: every stacked task still has
items to mine (pushes are guarded), `outstandingJobs` counts exactly the
worker tasks sent whose results the master has not yet absorbed, the channel
is closed exactly after the loop, and nothing is in flight once the master
is done. -/
structure SysInv (W : Nat) (s : Sys) : Prop where
  goodTasks : ∀ t ∈ tasksOf s.mstate, t.items ≠ []
  outCount : ∀ ts n, s.mstate = .loop ts n →
    n = s.wc.length + Multiset.card s.busy + Multiset.card s.pend +
      s.mc.length
  loopOpen : ∀ ts n, s.mstate = .loop ts n → s.wcClosed = false
  workerCount : ∀ ts n, s.mstate = .loop ts n →
    s.idle + Multiset.card s.busy + Multiset.card s.pend = W
  closedFlag : s.mstate = .closed → s.wcClosed = true
  closedEmpty : s.mstate = .closed →
    s.wc = [] ∧ s.busy = 0 ∧ s.pend = 0 ∧ s.mc = []
  notCrashed : s.mstate ≠ .crashed

theorem inv_init (tree : FPTreeM) (mcnt W : Nat)
    (hne : frequentItemsInTree tree mcnt ≠ []) :
    SysInv W (initSys tree mcnt W) := by
  refine ⟨?_, ?_, ?_, ?_, ?_, ?_, ?_⟩
  · intro t ht
    simp only [initSys, tasksOf, List.mem_singleton] at ht
    subst ht
    exact hne
  · intro ts n he
    dsimp only [initSys] at he ⊢
    cases he
    rfl
  · intro ts n he
    rfl
  · intro ts n he
    dsimp only [initSys]
    rfl
  · intro he
    dsimp only [initSys] at he
    cases he
  · intro he
    dsimp only [initSys] at he
    cases he
  · intro he
    dsimp only [initSys] at he
    cases he

theorem inv_step {W mcnt CW CM : Nat} {s s2 : Sys} (hI : SysInv W s)
    (h : Step mcnt CW CM s s2) : SysInv W s2 := by
  obtain ⟨hG, hO, hL, hWc, hCF, hCE, hNC⟩ := hI
  cases h with
  | dispatch t ts n wc idle busy pend mcq out i rest hitems hlen =>
      dsimp only at hG hO hL hWc hCF hCE hNC
      simp only [tasksOf] at hG
      have hOn := hO (t :: ts) n rfl
      have hWn := hWc (t :: ts) n rfl
      refine ⟨?_, ?_, ?_, ?_, ?_, ?_, ?_⟩ <;> dsimp only [tasksOf]
      · intro t2 ht2
        split at ht2
        · exact hG t2 (List.mem_cons_of_mem _ ht2)
        · rcases List.mem_cons.1 ht2 with rfl | ht2
          · rename_i hre
            simpa [List.isEmpty_iff] using hre
          · exact hG t2 (List.mem_cons_of_mem _ ht2)
      · intro ts2 n2 he
        cases he
        simp only [List.length_append, List.length_cons, List.length_nil]
        omega
      · intro ts2 n2 he; rfl
      · intro ts2 n2 he; exact hWn
      · intro he; cases he
      · intro he; cases he
      · intro he; cases he
  | absorb tasks n wc idle busy pend m mcq out =>
      dsimp only at hG hO hL hWc hCF hCE hNC
      simp only [tasksOf] at hG
      have hOn := hO tasks n rfl
      have hWn := hWc tasks n rfl
      refine ⟨?_, ?_, ?_, ?_, ?_, ?_, ?_⟩ <;> dsimp only [tasksOf]
      · intro t2 ht2
        split at ht2
        · exact hG t2 ht2
        · rcases List.mem_cons.1 ht2 with rfl | ht2
          · rename_i hre
            simpa [List.isEmpty_iff] using hre
          · exact hG t2 ht2
      · intro ts2 n2 he
        cases he
        simp only [List.length_cons] at hOn
        omega
      · intro ts2 n2 he; rfl
      · intro ts2 n2 he; exact hWn
      · intro he; cases he
      · intro he; cases he
      · intro he; cases he
  | finish wc idle busy pend mcq out =>
      dsimp only at hG hO hL hWc hCF hCE hNC
      have hOn := hO [] 0 rfl
      refine ⟨?_, ?_, ?_, ?_, ?_, ?_, ?_⟩ <;> dsimp only [tasksOf]
      · intro t2 ht2; cases ht2
      · intro ts2 n2 he; cases he
      · intro ts2 n2 he; cases he
      · intro ts2 n2 he; cases he
      · intro he; rfl
      · intro he
        refine ⟨List.length_eq_zero.1 (by omega),
          Multiset.card_eq_zero.1 (by omega),
          Multiset.card_eq_zero.1 (by omega),
          List.length_eq_zero.1 (by omega)⟩
      · intro he; cases he
  | crash t ts n wc idle busy pend mcq out hitems =>
      dsimp only at hG
      simp only [tasksOf] at hG
      exact absurd hitems (hG t (List.mem_cons_self _ _))
  | wrecv ms w wcq b idle busy pend mcq out =>
      dsimp only at hG hO hL hWc hCF hCE hNC
      refine ⟨?_, ?_, ?_, ?_, ?_, ?_, ?_⟩ <;> dsimp only [tasksOf]
      · exact hG
      · intro ts2 n2 he
        have := hO ts2 n2 he
        simp only [List.length_cons, Multiset.card_cons] at this ⊢
        omega
      · intro ts2 n2 he; exact hL ts2 n2 he
      · intro ts2 n2 he
        have := hWc ts2 n2 he
        simp only [Multiset.card_cons] at this ⊢
        omega
      · intro he; exact hCF he
      · intro he
        rcases hCE he with ⟨h1, h2, h3, h4⟩
        cases h1
      · exact hNC
  | wcompute ms wcq b idle w busyRest pend mcq out =>
      dsimp only at hG hO hL hWc hCF hCE hNC
      refine ⟨?_, ?_, ?_, ?_, ?_, ?_, ?_⟩ <;> dsimp only [tasksOf]
      · exact hG
      · intro ts2 n2 he
        have := hO ts2 n2 he
        simp only [Multiset.card_cons] at this ⊢
        omega
      · intro ts2 n2 he; exact hL ts2 n2 he
      · intro ts2 n2 he
        have := hWc ts2 n2 he
        simp only [Multiset.card_cons] at this ⊢
        omega
      · intro he; exact hCF he
      · intro he
        rcases hCE he with ⟨h1, h2, h3, h4⟩
        exact absurd h2 (Multiset.cons_ne_zero)
      · exact hNC
  | wsend ms wcq b idle busy m pendRest mcq out hlen =>
      dsimp only at hG hO hL hWc hCF hCE hNC
      refine ⟨?_, ?_, ?_, ?_, ?_, ?_, ?_⟩ <;> dsimp only [tasksOf]
      · exact hG
      · intro ts2 n2 he
        have := hO ts2 n2 he
        simp only [Multiset.card_cons, List.length_append,
          List.length_cons, List.length_nil] at this ⊢
        omega
      · intro ts2 n2 he; exact hL ts2 n2 he
      · intro ts2 n2 he
        have := hWc ts2 n2 he
        simp only [Multiset.card_cons] at this ⊢
        omega
      · intro he; exact hCF he
      · intro he
        rcases hCE he with ⟨h1, h2, h3, h4⟩
        exact absurd h3 (Multiset.cons_ne_zero)
      · exact hNC
  | wexit ms idle busy pend mcq out =>
      dsimp only at hG hO hL hWc hCF hCE hNC
      refine ⟨?_, ?_, ?_, ?_, ?_, ?_, ?_⟩ <;> dsimp only [tasksOf]
      · exact hG
      · intro ts2 n2 he
        have := hL ts2 n2 he
        simp at this
      · intro ts2 n2 he
        have := hL ts2 n2 he
        simp at this
      · intro ts2 n2 he
        have := hL ts2 n2 he
        simp at this
      · intro he; rfl
      · intro he
        rcases hCE he with ⟨h1, h2, h3, h4⟩
        exact ⟨rfl, h2, h3, h4⟩
      · exact hNC

theorem listEmitW_nil (mc : Nat) : listEmitW mc [] = 0 := rfl

theorem listEmitW_cons (mc : Nat) (w : WTaskM) (l : List WTaskM) :
    listEmitW mc (w :: l) = wtEmit mc w + listEmitW mc l := by
  simp [listEmitW]

theorem listEmitW_append (mc : Nat) (l1 l2 : List WTaskM) :
    listEmitW mc (l1 ++ l2) = listEmitW mc l1 + listEmitW mc l2 := by
  simp [listEmitW]

theorem listEmitM_nil (mc : Nat) : listEmitM mc [] = 0 := rfl

theorem listEmitM_cons (mc : Nat) (t : MTaskM) (l : List MTaskM) :
    listEmitM mc (t :: l) = mtEmit mc t + listEmitM mc l := by
  simp [listEmitM]

theorem listEmitM_append (mc : Nat) (l1 l2 : List MTaskM) :
    listEmitM mc (l1 ++ l2) = listEmitM mc l1 + listEmitM mc l2 := by
  simp [listEmitM]

theorem msetEmitW_cons (mc : Nat) (w : WTaskM) (s : Multiset WTaskM) :
    msetEmitW mc (w ::ₘ s) = wtEmit mc w + msetEmitW mc s := by
  simp [msetEmitW]

theorem msetEmitM_cons (mc : Nat) (m : MTaskM) (s : Multiset MTaskM) :
    msetEmitM mc (m ::ₘ s) = mtEmit mc m + msetEmitM mc s := by
  simp [msetEmitM]

theorem wtEmit_unfold_add (mc : Nat) (w : WTaskM) :
    wtEmit mc w = {wtHead w} + mtEmit mc (wtResult mc w) := by
  rw [wtEmit_unfold, Multiset.singleton_add]

/-- Every step conserves the collected-plus-pending emission multiset. -/
theorem phi_step {mcnt CW CM : Nat} {s s2 : Sys}
    (hG : ∀ t ∈ tasksOf s.mstate, t.items ≠ [])
    (h : Step mcnt CW CM s s2) : Phi mcnt s2 = Phi mcnt s := by
  cases h with
  | dispatch t ts n wc idle busy pend mcq out i rest hitems hlen =>
      have hsplit := @mtEmit_items_cons mcnt t _ _ hitems
      dsimp only [Phi, tasksOf]
      by_cases hre : rest.isEmpty = true
      · rw [if_pos hre]
        have hrnil : rest = [] := List.isEmpty_iff.1 hre
        subst hrnil
        simp only [listEmitW_append, listEmitW_cons, listEmitW_nil,
          listEmitM_cons]
        rw [hsplit, @mtEmit_items_nil mcnt ⟨t.tree, t.itemset, []⟩ rfl]
        abel
      · rw [if_neg hre]
        simp only [listEmitW_append, listEmitW_cons, listEmitW_nil,
          listEmitM_cons]
        rw [hsplit]
        abel
  | absorb tasks n wc idle busy pend m mcq out =>
      dsimp only [Phi, tasksOf]
      by_cases hre : m.items.isEmpty = true
      · rw [if_pos hre]
        simp only [listEmitM_cons]
        rw [@mtEmit_items_nil mcnt _ (List.isEmpty_iff.1 hre)]
        abel
      · rw [if_neg hre]
        simp only [listEmitM_cons]
        abel
  | finish wc idle busy pend mcq out =>
      dsimp only [Phi, tasksOf]
  | crash t ts n wc idle busy pend mcq out hitems =>
      dsimp only [tasksOf] at hG
      exact absurd hitems (hG t (List.mem_cons_self _ _))
  | wrecv ms w wcq b idle busy pend mcq out =>
      dsimp only [Phi]
      rw [listEmitW_cons, msetEmitW_cons]
      abel
  | wcompute ms wcq b idle w busyRest pend mcq out =>
      dsimp only [Phi]
      rw [msetEmitW_cons, msetEmitM_cons, wtEmit_unfold_add,
        ← Multiset.singleton_add]
      abel
  | wsend ms wcq b idle busy m pendRest mcq out hlen =>
      dsimp only [Phi]
      rw [msetEmitM_cons, listEmitM_append, listEmitM_cons, listEmitM_nil]
      abel
  | wexit ms idle busy pend mcq out =>
      rfl

theorem inv_reachable {W mcnt CW CM : Nat} {s s2 : Sys} (hI : SysInv W s)
    (hR : Reachable mcnt CW CM s s2) : SysInv W s2 := by
  induction hR with
  | refl => exact hI
  | tail _ hstep ih => exact inv_step ih hstep

theorem phi_reachable {W mcnt CW CM : Nat} {s s2 : Sys} (hI : SysInv W s)
    (hR : Reachable mcnt CW CM s s2) : Phi mcnt s2 = Phi mcnt s := by
  induction hR with
  | refl => rfl
  | tail hr hstep ih =>
      rw [phi_step (inv_reachable hI hr).goodTasks hstep, ih]

theorem phi_init (tree : FPTreeM) (mcnt W : Nat) :
    Phi mcnt (initSys tree mcnt W) =
      Multiset.ofList (fpGrowth tree [] mcnt) := by
  dsimp only [Phi, initSys, tasksOf]
  rw [listEmitM_cons, listEmitM_nil, mtEmit_init]
  simp [listEmitW, msetEmitW, msetEmitM]

theorem phi_terminal {mcnt : Nat} {s : Sys} (hT : Terminal s) :
    Phi mcnt s = s.out := by
  obtain ⟨h1, h2, h3, h4, h5, h6⟩ := hT
  unfold Phi
  rw [h1, h2, h4, h5, h6]
  simp [tasksOf, listEmitM, listEmitW, msetEmitW, msetEmitM]

/-- Progress: a configuration satisfying the invariant is either terminal
or has an enabled step — even when a channel buffer is full, some other
communication or computation can fire. -/
theorem progress {W mcnt CW CM : Nat} {s : Sys} (hCW : 1 ≤ CW)
    (hCM : 1 ≤ CM) (hW : 1 ≤ W) (hI : SysInv W s) (hT : ¬ Terminal s) :
    ∃ s2, Step mcnt CW CM s s2 := by
  obtain ⟨ms, wc, b, idle, busy, pend, mcq, out⟩ := s
  obtain ⟨hG, hO, hL, hWc, hCF, hCE, hNC⟩ := hI
  dsimp only at hG hO hL hWc hCF hCE hNC
  simp only [tasksOf] at hG
  cases ms with
  | crashed => exact absurd rfl hNC
  | closed =>
      obtain ⟨h1, h2, h3, h4⟩ := hCE rfl
      have hb : b = true := hCF rfl
      subst hb h1 h2 h3 h4
      cases idle with
      | zero => exact absurd ⟨rfl, rfl, rfl, rfl, rfl, rfl⟩ hT
      | succ k => exact ⟨_, Step.wexit _ k 0 0 [] out⟩
  | loop tasks n =>
      have hb : b = false := hL tasks n rfl
      subst hb
      have hcount := hO tasks n rfl
      have hwcount := hWc tasks n rfl
      cases tasks with
      | cons t ts =>
          have hne := hG t (List.mem_cons_self _ _)
          obtain ⟨i, rest, hitems⟩ : ∃ i rest, t.items = i :: rest := by
            cases h : t.items with
            | nil => exact absurd h hne
            | cons a l => exact ⟨a, l, rfl⟩
          by_cases hlen : wc.length < CW
          · exact ⟨_, Step.dispatch t ts n wc idle busy pend mcq out i rest
              hitems hlen⟩
          · have hwcne : wc ≠ [] := by
              intro hnil
              rw [hnil] at hlen
              simp at hlen
              omega
            obtain ⟨w, wcq, rfl⟩ : ∃ w wcq, wc = w :: wcq := by
              cases wc with
              | nil => exact absurd rfl hwcne
              | cons a l => exact ⟨a, l, rfl⟩
            cases idle with
            | succ k =>
                exact ⟨_, Step.wrecv _ w wcq false k busy pend mcq out⟩
            | zero =>
                by_cases hbusy : busy = 0
                · subst hbusy
                  have hpne : pend ≠ 0 := by
                    intro h0
                    rw [h0] at hwcount
                    simp at hwcount
                    omega
                  obtain ⟨m, hm⟩ := Multiset.exists_mem_of_ne_zero hpne
                  obtain ⟨p2, rfl⟩ := Multiset.exists_cons_of_mem hm
                  by_cases hmc : mcq.length < CM
                  · exact ⟨_, Step.wsend _ _ false 0 0 m p2 mcq out hmc⟩
                  · obtain ⟨m0, mcq2, rfl⟩ : ∃ m0 mcq2, mcq = m0 :: mcq2 := by
                      cases mcq with
                      | nil =>
                          exfalso
                          simp at hmc
                          omega
                      | cons a l => exact ⟨a, l, rfl⟩
                    exact ⟨_, Step.absorb (t :: ts) n _ 0 0 _ m0 mcq2 out⟩
                · obtain ⟨w2, hw2⟩ := Multiset.exists_mem_of_ne_zero hbusy
                  obtain ⟨b2, rfl⟩ := Multiset.exists_cons_of_mem hw2
                  exact ⟨_, Step.wcompute _ _ false 0 w2 b2 pend mcq out⟩
      | nil =>
          cases n with
          | zero => exact ⟨_, Step.finish wc idle busy pend mcq out⟩
          | succ k =>
              cases mcq with
              | cons m mcq2 =>
                  exact ⟨_, Step.absorb [] (k+1) wc idle busy pend m mcq2
                    out⟩
              | nil =>
                  by_cases hbusy : busy = 0
                  · by_cases hpend : pend = 0
                    · subst hbusy hpend
                      simp only [Multiset.card_zero,
                        List.length_nil] at hcount
                      obtain ⟨w, wcq, rfl⟩ : ∃ w wcq, wc = w :: wcq := by
                        cases wc with
                        | nil => simp at hcount
                        | cons a l => exact ⟨a, l, rfl⟩
                      cases idle with
                      | zero =>
                          exfalso
                          simp at hwcount
                          omega
                      | succ j =>
                          exact ⟨_, Step.wrecv _ w wcq false j 0 0 [] out⟩
                    · obtain ⟨m, hm⟩ := Multiset.exists_mem_of_ne_zero hpend
                      obtain ⟨p2, rfl⟩ := Multiset.exists_cons_of_mem hm
                      have hmc : ([] : List MTaskM).length < CM := by
                        simp
                        omega
                      exact ⟨_, Step.wsend _ _ false idle busy m p2 [] out
                        hmc⟩
                  · obtain ⟨w2, hw2⟩ := Multiset.exists_mem_of_ne_zero hbusy
                    obtain ⟨b2, rfl⟩ := Multiset.exists_cons_of_mem hw2
                    exact ⟨_, Step.wcompute _ _ false idle w2 b2 pend [] out⟩

/-! ### Claim theorems -/

theorem minCountOf_one (n : Nat) : minCountOf 1 n = max 1 n := by
  unfold minCountOf
  norm_num

theorem minCountOf_zero_trans (q : Rat) : minCountOf q 0 = 1 := by
  unfold minCountOf
  norm_num

theorem filterLine_mem (itz : List Token) (keep : Item → Bool)
    (line : List Token) (i : Item) :
    i ∈ filterLine itz keep line ↔
      ((∃ tok ∈ line, tokenId itz tok = some i) ∧ keep i = true) := by
  unfold filterLine
  rw [List.mem_filterMap]
  constructor
  · rintro ⟨tok, htok, hf⟩
    rcases hid : tokenId itz tok with _ | j
    · rw [hid] at hf
      cases hf
    · rw [hid] at hf
      dsimp only at hf
      by_cases hk : keep j = true
      · rw [if_pos hk] at hf
        rcases Option.some.inj hf with rfl
        exact ⟨⟨tok, htok, hid⟩, hk⟩
      · rw [if_neg hk] at hf
        cases hf
  · rintro ⟨⟨tok, htok, hid⟩, hk⟩
    refine ⟨tok, htok, ?_⟩
    rw [hid]
    simp [hk]

/-- C6: for `minSupport ∈ [0,1]` the mining threshold is
`max(1, ⌈minSupport · numTransactions⌉)` (src/arm.go line 153), and the
pass-2 filter keeps an occurrence of item `i` exactly when its pass-1
frequency is at least `minCount` (src/arm.go lines 158-162). -/
theorem c6_minCount_frequent_filter (ms : Rat) (n : Nat) (ds : Dataset)
    (itz : List Token) (line : List Token) (i : Item)
    (h0 : 0 ≤ ms) (hle : ms ≤ 1) :
    ((minCountOf ms n : Int) = max 1 (Int.ceil (ms * (n : Rat)))) ∧
    (i ∈ filterLine itz
        (fun j => decide (minCountOf ms n ≤ freqItem ds itz j)) line ↔
      ((∃ tok ∈ line, tokenId itz tok = some i) ∧
        minCountOf ms n ≤ freqItem ds itz i)) := by
  constructor
  · have hc : (0 : Int) ≤ Int.ceil (ms * (n : Rat)) :=
      Int.ceil_nonneg (mul_nonneg h0 (by positivity))
    unfold minCountOf
    rw [Nat.cast_max]
    simp [Int.toNat_of_nonneg hc]
  · rw [filterLine_mem]
    simp

/-- Witness for C6 at `minSupport = 1/2`, 4 transactions. -/
theorem c6_witness :
    ((minCountOf (1/2) 4 : Int) =
      max 1 (Int.ceil ((1/2 : Rat) * ((4 : Nat) : Rat)))) ∧
    (0 ∈ filterLine ["a"]
        (fun j => decide (minCountOf (1/2) 4 ≤ freqItem [["a"]] ["a"] j))
        ["a"] ↔
      ((∃ tok ∈ ["a"], tokenId ["a"] tok = some 0) ∧
        minCountOf (1/2) 4 ≤ freqItem [["a"]] ["a"] 0)) :=
  c6_minCount_frequent_filter (1/2) 4 [["a"]] ["a"] ["a"] 0 (by norm_num)
    (by norm_num)

/-- C7 counterexample: with both MinSupport and MinConfidence out of range,
`Validate` returns `MinSupportOutOfRange`, so "returns
MinConfidenceOutOfRange exactly when MinConfidence is outside `[0,1]`" fails
as an iff. -/
theorem c7_counterexample :
    ¬ (ValidateM ⟨"", "", -1, -1, 0, ""⟩ =
        some ArmError.minConfidenceOutOfRange ↔
      ((-1 : Rat) < 0 ∨ 1 < (-1 : Rat))) := by
  decide

/-- C7 (amended): the three range errors are returned in priority order —
`MinSupportOutOfRange` iff MinSupport is out of `[0,1]`;
`MinConfidenceOutOfRange` iff MinSupport is in range and MinConfidence out;
`MinLiftOutOfRange` iff both are in range and MinLift is nonzero and below 1
— `MinLift = 1/2` is rejected, `MinLift = 0` passes, and a validation error
is returned before any file I/O (empty trace). -/
theorem c7_validate_priority_no_io (a : ArgumentsM) (w : World)
    (e : ArmError) :
    (ValidateM a = some .minSupportOutOfRange ↔
      (a.minSupport < 0 ∨ 1 < a.minSupport)) ∧
    (ValidateM a = some .minConfidenceOutOfRange ↔
      (¬(a.minSupport < 0 ∨ 1 < a.minSupport) ∧
        (a.minConfidence < 0 ∨ 1 < a.minConfidence))) ∧
    (ValidateM a = some .minLiftOutOfRange ↔
      (¬(a.minSupport < 0 ∨ 1 < a.minSupport) ∧
        ¬(a.minConfidence < 0 ∨ 1 < a.minConfidence) ∧
        a.minLift ≠ 0 ∧ a.minLift < 1)) ∧
    (ValidateM ⟨a.input, a.output, 0, 0, 1/2, a.itemsetsPath⟩ =
      some .minLiftOutOfRange) ∧
    (ValidateM ⟨a.input, a.output, 0, 0, 0, a.itemsetsPath⟩ = none) ∧
    (ValidateM a = some e → MineAssociationRulesM w a = (.error e, [])) := by
  refine ⟨?_, ?_, ?_, ?_, ?_, ?_⟩
  · unfold ValidateM
    split_ifs with h1 h2 h3 <;> simp_all
  · unfold ValidateM
    split_ifs with h1 h2 h3 <;> simp_all
  · unfold ValidateM
    split_ifs with h1 h2 h3 <;> simp_all
  · unfold ValidateM
    norm_num
  · unfold ValidateM
    norm_num
  · intro hval
    unfold MineAssociationRulesM
    rw [hval]

/-- Witness for C7: a concrete argument record with MinSupport out of range
is rejected before any file operation. -/
theorem c7_witness :
    (ValidateM ⟨"x", "y", -1, 1, 0, "z"⟩ =
        some ArmError.minSupportOutOfRange ↔
      ((-1 : Rat) < 0 ∨ 1 < (-1 : Rat))) ∧
    MineAssociationRulesM ⟨.ok [], .ok (), .ok (), .ok (), .ok ()⟩
        ⟨"x", "y", -1, 1, 0, "z"⟩ =
      (.error .minSupportOutOfRange, []) := by
  have h := c7_validate_priority_no_io ⟨"x", "y", -1, 1, 0, "z"⟩
    ⟨.ok [], .ok (), .ok (), .ok (), .ok ()⟩ .minSupportOutOfRange
  exact ⟨h.1, h.2.2.2.2.2 (by decide)⟩

/-- C10: `Validate` reads only the three numeric thresholds — any Input,
Output and ItemsetsPath strings validate identically, in particular empty
required paths pass — and a failing input open surfaces only as the I/O
error of the first counting pass. -/
theorem c10_validate_ignores_paths (a : ArgumentsM)
    (inp outp itp : String) (w : World) (k : Nat) :
    (ValidateM ⟨inp, outp, a.minSupport, a.minConfidence, a.minLift, itp⟩ =
      ValidateM a) ∧
    (ValidateM a = none → w.inputLines = .error k →
      MineAssociationRulesM w a = (.error (.ioErr k), [.openInput])) := by
  constructor
  · rfl
  · intro hv hw
    unfold MineAssociationRulesM
    rw [hv, hw]

/-- Witness for C10: empty Input and Output pass `Validate`; a failing open
of the input is returned as the first pass's I/O error. -/
theorem c10_witness :
    (ValidateM ⟨"zzz", "yyy", 1, 1, 0, "ppp"⟩ =
      ValidateM ⟨"", "", 1, 1, 0, ""⟩) ∧
    MineAssociationRulesM ⟨.error 5, .ok (), .ok (), .ok (), .ok ()⟩
        ⟨"", "", 1, 1, 0, ""⟩ =
      (.error (.ioErr 5), [.openInput]) := by
  have h := c10_validate_ignores_paths ⟨"", "", 1, 1, 0, ""⟩ "zzz" "yyy"
    "ppp" ⟨.error 5, .ok (), .ok (), .ok (), .ok ()⟩ 5
  exact ⟨h.1, h.2 (by decide) rfl⟩

/-- C8 (code bug): when creating the rules file fails, `writeRules` aborts
and returns the error, but `MineAssociationRules` (src/arm.go lines 213 and
225) discards the returned errors and reports success. -/
theorem c8_write_error_swallowed :
    writeRulesM (Except.error 7) (Except.ok ())
        (generateRulesM (mineDatasetSeq [["a"]] 1) 1 1 0) =
      Except.error 7 ∧
    (MineAssociationRulesM ⟨.ok [["a"]], .ok (), .ok (), .error 7, .ok ()⟩
        ⟨"in", "out", 1, 1, 0, ""⟩).1 =
      .ok (mineDatasetSeq [["a"]] 1,
        generateRulesM (mineDatasetSeq [["a"]] 1) 1 1 0) := by
  exact ⟨rfl, rfl⟩

/-- C1 (code bug): on ten transactions `a,b` with `minSupport = 1`,
`minCount = 10` and `support({a}) = 10 ≥ minCount`, yet the miner emits no
itemsets at all, because `frequentItemsInTree` uses the strict comparison
`counts > minCount` (src/unnamed/part_001 line 175). -/
theorem c1_boundary_itemset_missing :
    mineDatasetSeq (List.replicate 10 ["a", "b"]) 1 = [] ∧
    minCountOf 1 (List.replicate 10 ["a", "b"] : Dataset).length = 10 ∧
    supportOfSet (List.replicate 10 ["a", "b"])
      (buildItemizer (List.replicate 10 ["a", "b"])) [0] = 10 := by
  have hmc : minCountOf 1 10 = 10 := by
    rw [minCountOf_one]
    omega
  refine ⟨?_, ?_, ?_⟩
  · unfold mineDatasetSeq generateFrequentItemsetsM
    rw [show (List.replicate 10 ["a", "b"] : Dataset).length = 10 from rfl,
      hmc]
    decide
  · rw [show (List.replicate 10 ["a", "b"] : Dataset).length = 10 from rfl]
    exact hmc
  · decide

/-- C2 (code bug): on empty input the sequential package path succeeds with
0 itemsets and 0 rules, but the parallel main path does not: the master
pushes its initial task unconditionally (src/unnamed/part_001 line 133) and
immediately evaluates `lastTask.items[0]` (line 144), though on an empty
tree `frequentItemsInTree` is empty — the model's only step from the
initial state is the panic. -/
theorem c2_empty_input :
    (∀ q : Rat, mineDatasetSeq [] q = []) ∧
    (∀ (n : Nat) (mcf ml : Rat), generateRulesM [] n mcf ml = []) ∧
    (MineAssociationRulesM ⟨.ok [], .ok (), .ok (), .ok (), .ok ()⟩
        ⟨"in", "out", 1, 1, 0, ""⟩ =
      (.ok ([], []), [.openInput, .openInput, .createRules])) ∧
    ((initSys ([] : FPTreeM) 1 28).mstate = .loop [⟨[], [], []⟩] 0) ∧
    ¬ Terminal (initSys ([] : FPTreeM) 1 28) ∧
    (∀ s2, Step 1 10000 10000 (initSys ([] : FPTreeM) 1 28) s2 →
      s2.mstate = .crashed) ∧
    (∃ s2, Step 1 10000 10000 (initSys ([] : FPTreeM) 1 28) s2) := by
  refine ⟨?_, ?_, ?_, ?_, ?_, ?_, ?_⟩
  · intro q
    unfold mineDatasetSeq generateFrequentItemsetsM
    rw [show ([] : Dataset).length = 0 from rfl, minCountOf_zero_trans]
    rfl
  · intro n mcf ml
    rfl
  · rfl
  · rfl
  · decide
  · intro s2 h
    generalize hs : initSys ([] : FPTreeM) 1 28 = s0 at h
    cases h with
    | dispatch t ts n wc idle busy pend mcq out i rest hitems hlen =>
        simp only [initSys, Sys.mk.injEq, MState.loop.injEq,
          List.cons.injEq] at hs
        obtain ⟨⟨⟨ht, -⟩, -⟩, -⟩ := hs
        rw [← ht] at hitems
        cases hitems
    | absorb tasks n wc idle busy pend m mcq out =>
        simp only [initSys, Sys.mk.injEq] at hs
        exact absurd hs.2.2.2.2.2.2.1 (by simp)
    | finish wc idle busy pend mcq out =>
        simp only [initSys, Sys.mk.injEq, MState.loop.injEq] at hs
        exact absurd hs.1.1 (by simp)
    | crash t ts n wc idle busy pend mcq out hitems => rfl
    | wrecv ms w wcq b idle busy pend mcq out =>
        simp only [initSys, Sys.mk.injEq] at hs
        exact absurd hs.2.1 (by simp)
    | wcompute ms wcq b idle w busyRest pend mcq out =>
        simp only [initSys, Sys.mk.injEq] at hs
        exact absurd hs.2.2.2.2.1 (Multiset.cons_ne_zero).symm
    | wsend ms wcq b idle busy m pendRest mcq out hlen =>
        simp only [initSys, Sys.mk.injEq] at hs
        exact absurd hs.2.2.2.2.2.1 (Multiset.cons_ne_zero).symm
    | wexit ms idle busy pend mcq out =>
        simp only [initSys, Sys.mk.injEq] at hs
        exact absurd hs.2.2.1 (by simp)
  · exact ⟨_, Step.crash ⟨[], [], []⟩ [] 0 [] 28 0 0 [] 0 rfl⟩

/-- C5: pass 2 processes a scanned transaction by dropping the items whose
pass-1 frequency is below `minCount`; if nothing remains the transaction is
skipped, otherwise the kept items are reordered into the unique sequence
sorted by strictly decreasing global frequency with ties broken by the
interner's comparator — which is what the stable sort with the src
comparator produces — and inserted with weight 1. -/
theorem c5_pass2_transaction (itz : List Token) (freq : Item → Nat)
    (minCount : Nat) (t : FPTreeM) (line : List Token) :
    (∀ i, i ∈ filterLine itz (fun j => decide (minCount ≤ freq j)) line ↔
      ((∃ tok ∈ line, tokenId itz tok = some i) ∧ minCount ≤ freq i)) ∧
    (filterLine itz (fun j => decide (minCount ≤ freq j)) line = [] →
      processTransaction itz freq minCount t line = t) ∧
    (∀ kept,
      kept = filterLine itz (fun j => decide (minCount ≤ freq j)) line →
      kept ≠ [] →
      processTransaction itz freq minCount t line =
        t ++ [(sortTrans freq kept, 1)] ∧
      List.Perm (sortTrans freq kept) kept ∧
      List.Sorted (keyLE freq) (sortTrans freq kept) ∧
      (∀ l2, List.Perm l2 kept → List.Sorted (keyLE freq) l2 →
        l2 = sortTrans freq kept)) ∧
    (∀ a b, ltCode freq a b = true ↔
      (freq b < freq a ∨ (freq a = freq b ∧ a < b))) := by
  refine ⟨?_, ?_, ?_, ?_⟩
  · intro i
    rw [filterLine_mem]
    simp
  · intro hnil
    unfold processTransaction
    rw [hnil]
    rfl
  · intro kept hk hne
    subst hk
    refine ⟨?_, stableSort_perm _ _, stableSort_sorted _ _, ?_⟩
    · unfold processTransaction
      rw [if_neg (by simpa [List.isEmpty_iff] using hne)]
    · intro l2 hperm hsort
      exact List.eq_of_perm_of_sorted
        (hperm.trans (stableSort_perm (ltCode freq) _).symm) hsort
        (stableSort_sorted _ _)
  · exact ltCode_iff freq

/-- Witness for C5 on the line `c,b,a` with frequencies `a,b ↦ 3`, `c ↦ 2`
and `minCount = 3`: `c` is dropped and the tie between `b` and `a` is broken
by the interner's order, so the inserted path is `[a, b]` (ids `[0, 1]`). -/
theorem c5_witness :
    processTransaction ["a", "b", "c"] (fun i => [3, 3, 2].getD i 0) 3 []
        ["c", "b", "a"] =
      [] ++ [(sortTrans (fun i => [3, 3, 2].getD i 0) [1, 0], 1)] ∧
    List.Perm (sortTrans (fun i => [3, 3, 2].getD i 0) [1, 0]) [1, 0] ∧
    List.Sorted (keyLE (fun i => [3, 3, 2].getD i 0))
      (sortTrans (fun i => [3, 3, 2].getD i 0) [1, 0]) := by
  have h := (c5_pass2_transaction ["a", "b", "c"]
    (fun i => [3, 3, 2].getD i 0) 3 [] ["c", "b", "a"]).2.2.1 [1, 0]
    (by decide) (by decide)
  exact ⟨h.1, h.2.1, h.2.2.1⟩

theorem contains_iff_mem (l : List Item) (x : Item) :
    l.contains x = true ↔ x ∈ l := List.elem_iff

theorem contains_eq_false_iff (l : List Item) (x : Item) :
    l.contains x = false ↔ x ∉ l := by
  constructor
  · intro h hx
    rw [(contains_iff_mem l x).2 hx] at h
    cases h
  · intro h
    cases hc : l.contains x
    · rfl
    · exact absurd ((contains_iff_mem l x).1 hc) h

/-- C4: every emitted rule has disjoint, non-empty antecedent and
consequent; their union is set-equal to a frequent itemset of the input
collection; the confidence is `support(I)/support(A)` and is at least
`minConf`; with the lift filter enabled the lift is at least `minLift`;
and the support field is `support(I)/numTransactions`. -/
theorem c4_rules_sound (itemsets : List IWC) (n : Nat)
    (minConf minLift : Rat) (chunk : List RuleM) (r : RuleM)
    (hnd : ∀ iw ∈ itemsets, (iw.1 : List Item).Nodup)
    (hchunk : chunk ∈ generateRulesM itemsets n minConf minLift)
    (hr : r ∈ chunk) :
    (∀ x ∈ r.antecedent, x ∉ r.consequent) ∧
    r.antecedent ≠ [] ∧ r.consequent ≠ [] ∧
    (∃ iw ∈ itemsets,
      setEq (r.antecedent ++ r.consequent) iw.1 = true ∧
      r.support = (iw.2 : Rat) / (n : Rat) ∧
      r.confidence =
        (iw.2 : Rat) / (supportLookup itemsets r.antecedent : Rat) ∧
      r.lift = r.confidence /
        ((supportLookup itemsets r.consequent : Rat) / (n : Rat))) ∧
    minConf ≤ r.confidence ∧
    (0 < minLift → minLift ≤ r.lift) := by
  rcases List.mem_map.1 hchunk with ⟨iw, hiw, rfl⟩
  unfold genRulesFor at hr
  by_cases hlen2 : iw.1.length < 2
  · rw [if_pos hlen2] at hr
    cases hr
  rw [if_neg hlen2] at hr
  rcases List.mem_filterMap.1 hr with ⟨A, hA, hf⟩
  have hAsub : List.Sublist A iw.1 := List.mem_sublists.1 hA
  by_cases hAe : A.isEmpty
  · rw [if_pos hAe] at hf
    cases hf
  rw [if_neg hAe] at hf
  by_cases hAl : A.length = iw.1.length
  · rw [if_pos hAl] at hf
    cases hf
  rw [if_neg hAl] at hf
  dsimp only at hf
  by_cases hc : (iw.2 : Rat) / (supportLookup itemsets A : Rat) < minConf
  · rw [if_pos hc] at hf
    cases hf
  rw [if_neg hc] at hf
  by_cases hl : 0 < minLift ∧
      (iw.2 : Rat) / (supportLookup itemsets A : Rat) /
        ((supportLookup itemsets
            (iw.1.filter (fun x => !(A.contains x))) : Rat) / (n : Rat)) <
        minLift
  · rw [if_pos hl] at hf
    cases hf
  rw [if_neg hl] at hf
  rcases Option.some.inj hf with rfl
  push_neg at hl
  refine ⟨?_, ?_, ?_, ?_, not_lt.1 hc, hl⟩
  · intro x hx hx2
    dsimp only at hx hx2
    have h2 := (List.mem_filter.1 hx2).2
    rw [Bool.not_eq_true'] at h2
    exact (contains_eq_false_iff _ _).1 h2 hx
  · simpa [List.isEmpty_iff] using hAe
  · intro hCnil
    dsimp only at hCnil
    have hsub : iw.1 ⊆ A := by
      intro x hx
      by_contra hxA
      have hxC : x ∈ iw.1.filter (fun y => !(A.contains y)) := by
        rw [List.mem_filter]
        refine ⟨hx, ?_⟩
        rw [Bool.not_eq_true']
        exact (contains_eq_false_iff _ _).2 hxA
      rw [hCnil] at hxC
      cases hxC
    have h1 : iw.1.length ≤ A.length :=
      ((hnd iw hiw).subperm hsub).length_le
    have h2 : A.length ≤ iw.1.length := hAsub.length_le
    exact hAl (le_antisymm h2 h1)
  · refine ⟨iw, hiw, ?_, rfl, rfl, rfl⟩
    dsimp only
    unfold setEq
    rw [Bool.and_eq_true, List.all_eq_true, List.all_eq_true]
    constructor
    · intro x hx
      rcases List.mem_append.1 hx with hx | hx
      · exact (contains_iff_mem _ _).2 (hAsub.subset hx)
      · exact (contains_iff_mem _ _).2 (List.mem_filter.1 hx).1
    · intro x hx
      rw [contains_iff_mem, List.mem_append]
      by_cases hxA : x ∈ A
      · exact Or.inl hxA
      · refine Or.inr (List.mem_filter.2 ⟨hx, ?_⟩)
        rw [Bool.not_eq_true']
        exact (contains_eq_false_iff _ _).2 hxA

/-- Witness for C4 on the frequent collection `{a}:2, {b}:2, {a,b}:2` with
two transactions and both thresholds 0: the rule `a ⇒ b` is emitted and the
theorem yields its structural properties. -/
theorem c4_witness :
    (∀ x ∈ ([0] : List Item), x ∉ ([1] : List Item)) ∧
    ([0] : List Item) ≠ [] ∧ ([1] : List Item) ≠ [] := by
  have hval : genRulesFor
      (supportLookup [([0], 2), ([1], 2), ([0, 1], 2)]) 2 0 0 ([0, 1], 2) =
      [⟨[0], [1], 1, 1, 1⟩, ⟨[1], [0], 1, 1, 1⟩] := by
    unfold genRulesFor
    rw [if_neg (by decide)]
    rw [show ([0, 1] : List Item).sublists = [[], [0], [1], [0, 1]] from by
      decide]
    norm_num [List.filterMap_cons, List.filterMap_nil, supportLookup,
      List.find?, setEq]
  have hchunk : [(⟨[0], [1], 1, 1, 1⟩ : RuleM), ⟨[1], [0], 1, 1, 1⟩] ∈
      generateRulesM [([0], 2), ([1], 2), ([0, 1], 2)] 2 0 0 := by
    rw [← hval]
    exact List.mem_map_of_mem _ (by decide)
  have h := c4_rules_sound [([0], 2), ([1], 2), ([0, 1], 2)] 2 0 0
    [⟨[0], [1], 1, 1, 1⟩, ⟨[1], [0], 1, 1, 1⟩] ⟨[0], [1], 1, 1, 1⟩
    (by decide) hchunk (List.mem_cons_self _ _)
  exact ⟨h.1, h.2.1, h.2.2.1⟩

theorem setEq_iff (a b : List Item) :
    setEq a b = true ↔ ∀ x, (x ∈ a ↔ x ∈ b) := by
  unfold setEq
  rw [Bool.and_eq_true, List.all_eq_true, List.all_eq_true]
  constructor
  · rintro ⟨h1, h2⟩ x
    exact ⟨fun hx => (contains_iff_mem _ _).1 (h1 x hx),
      fun hx => (contains_iff_mem _ _).1 (h2 x hx)⟩
  · intro h
    exact ⟨fun x hx => (contains_iff_mem _ _).2 ((h x).1 hx),
      fun x hx => (contains_iff_mem _ _).2 ((h x).2 hx)⟩

theorem supportLookup_perm {l1 l2 : List IWC} (hp : List.Perm l1 l2)
    (hu : ∀ x ∈ l1, ∀ y ∈ l1, setEq x.1 y.1 = true → x = y)
    (s : List Item) : supportLookup l1 s = supportLookup l2 s := by
  unfold supportLookup
  rcases h1 : l1.find? (fun iw => setEq iw.1 s) with _ | x1
  · rcases h2 : l2.find? (fun iw => setEq iw.1 s) with _ | x2
    · rw [h1, h2]
    · exfalso
      have hx2 : x2 ∈ l1 := hp.symm.subset (List.mem_of_find?_eq_some h2)
      have hp2 := List.find?_some h2
      exact List.find?_eq_none.1 h1 x2 hx2 hp2
  · rcases h2 : l2.find? (fun iw => setEq iw.1 s) with _ | x2
    · exfalso
      have hx1 : x1 ∈ l2 := hp.subset (List.mem_of_find?_eq_some h1)
      have hp1 := List.find?_some h1
      exact List.find?_eq_none.1 h2 x1 hx1 hp1
    · have hx1 : x1 ∈ l1 := List.mem_of_find?_eq_some h1
      have hx2 : x2 ∈ l1 := hp.symm.subset (List.mem_of_find?_eq_some h2)
      have hp1 : setEq x1.1 s = true := by simpa using List.find?_some h1
      have hp2 : setEq x2.1 s = true := by simpa using List.find?_some h2
      have heq : setEq x1.1 x2.1 = true := by
        rw [setEq_iff] at hp1 hp2 ⊢
        intro x
        exact (hp1 x).trans (hp2 x).symm
      rw [h1, h2, hu x1 hx1 x2 hx2 heq]

/-- C3: a complete (terminal) run of the parallel scheduler collects
exactly the multiset of (itemset, count) pairs that sequential FP-Growth
produces on the same tree and minCount — for every worker count, channel
capacities and interleaving; consequently, feeding the itemset collection
to the rule generator in any order yields the same multiset of rules (the
collection indexing distinct sets, as mined collections do). -/
theorem c3_parallel_matches_sequential (tree : FPTreeM)
    (mcnt CW CM W : Nat) (s : Sys)
    (hne : frequentItemsInTree tree mcnt ≠ [])
    (hR : Reachable mcnt CW CM (initSys tree mcnt W) s)
    (hT : Terminal s) :
    s.out = Multiset.ofList (fpGrowth tree [] mcnt) ∧
    (∀ (l1 l2 : List IWC) (n : Nat) (mcf ml : Rat),
      List.Perm l1 l2 →
      (∀ x ∈ l1, ∀ y ∈ l1, setEq x.1 y.1 = true → x = y) →
      List.Perm (generateRulesM l1 n mcf ml).flatten
        (generateRulesM l2 n mcf ml).flatten) := by
  constructor
  · have hphi := phi_reachable (inv_init tree mcnt W hne) hR
    rw [phi_terminal hT, phi_init] at hphi
    exact hphi
  · intro l1 l2 n mcf ml hperm huniq
    have hlk : supportLookup l1 = supportLookup l2 := by
      funext s3
      exact supportLookup_perm hperm huniq s3
    unfold generateRulesM
    rw [show ((l1.map (genRulesFor (supportLookup l1) n mcf ml)).flatten)
        = l1.flatMap (genRulesFor (supportLookup l1) n mcf ml) from rfl,
      show ((l2.map (genRulesFor (supportLookup l2) n mcf ml)).flatten)
        = l2.flatMap (genRulesFor (supportLookup l2) n mcf ml) from rfl,
      hlk]
    exact hperm.flatMap_right _

/-- Witness for C3: an explicit seven-step terminal run of the scheduler
with one worker and capacity-1 channels on the one-transaction tree,
collecting exactly the sequential output. -/
theorem c3_witness :
    (⟨.closed, [], true, 0, 0, 0, [],
        {(([0] : List Item), 1)}⟩ : Sys).out =
      Multiset.ofList (fpGrowth [([0], 1)] [] 0) ∧
    List.Perm (generateRulesM [([0], 1), ([1], 1)] 2 0 0).flatten
      (generateRulesM [([1], 1), ([0], 1)] 2 0 0).flatten := by
  have hR : Reachable 0 1 1 (initSys [([0], 1)] 0 1)
      ⟨.closed, [], true, 0, 0, 0, [], {(([0] : List Item), 1)}⟩ := by
    have h1 : Step 0 1 1 (initSys [([0], 1)] 0 1)
        ⟨.loop [] 1, [⟨[([0], 1)], 0, []⟩], false, 1, 0, 0, [], 0⟩ :=
      Step.dispatch ⟨[([0], 1)], [], [0]⟩ [] 0 [] 1 0 0 [] 0 0 [] rfl
        (by decide)
    have h2 : Step 0 1 1
        ⟨.loop [] 1, [⟨[([0], 1)], 0, []⟩], false, 1, 0, 0, [], 0⟩
        ⟨.loop [] 1, [], false, 0, (⟨[([0], 1)], 0, []⟩ : WTaskM) ::ₘ 0,
          0, [], 0⟩ :=
      Step.wrecv (.loop [] 1) ⟨[([0], 1)], 0, []⟩ [] false 0 0 0 [] 0
    have h3 : Step 0 1 1
        ⟨.loop [] 1, [], false, 0, (⟨[([0], 1)], 0, []⟩ : WTaskM) ::ₘ 0,
          0, [], 0⟩
        ⟨.loop [] 1, [], false, 0, 0,
          wtResult 0 ⟨[([0], 1)], 0, []⟩ ::ₘ 0, [],
          wtHead ⟨[([0], 1)], 0, []⟩ ::ₘ 0⟩ :=
      Step.wcompute (.loop [] 1) [] false 0 ⟨[([0], 1)], 0, []⟩ 0 0 [] 0
    have h4 : Step 0 1 1
        ⟨.loop [] 1, [], false, 0, 0,
          wtResult 0 ⟨[([0], 1)], 0, []⟩ ::ₘ 0, [],
          wtHead ⟨[([0], 1)], 0, []⟩ ::ₘ 0⟩
        ⟨.loop [] 1, [], false, 1, 0, 0,
          [wtResult 0 ⟨[([0], 1)], 0, []⟩],
          wtHead ⟨[([0], 1)], 0, []⟩ ::ₘ 0⟩ :=
      Step.wsend (.loop [] 1) [] false 0 0
        (wtResult 0 ⟨[([0], 1)], 0, []⟩) 0 []
        (wtHead ⟨[([0], 1)], 0, []⟩ ::ₘ 0) (by decide)
    have h5 : Step 0 1 1
        ⟨.loop [] 1, [], false, 1, 0, 0,
          [wtResult 0 ⟨[([0], 1)], 0, []⟩],
          wtHead ⟨[([0], 1)], 0, []⟩ ::ₘ 0⟩
        ⟨.loop [] 0, [], false, 1, 0, 0, [],
          wtHead ⟨[([0], 1)], 0, []⟩ ::ₘ 0⟩ :=
      Step.absorb [] 1 [] 1 0 0 (wtResult 0 ⟨[([0], 1)], 0, []⟩) []
        (wtHead ⟨[([0], 1)], 0, []⟩ ::ₘ 0)
    have h6 : Step 0 1 1
        ⟨.loop [] 0, [], false, 1, 0, 0, [],
          wtHead ⟨[([0], 1)], 0, []⟩ ::ₘ 0⟩
        ⟨.closed, [], true, 1, 0, 0, [],
          wtHead ⟨[([0], 1)], 0, []⟩ ::ₘ 0⟩ :=
      Step.finish [] 1 0 0 [] (wtHead ⟨[([0], 1)], 0, []⟩ ::ₘ 0)
    have h7 : Step 0 1 1
        ⟨.closed, [], true, 1, 0, 0, [],
          wtHead ⟨[([0], 1)], 0, []⟩ ::ₘ 0⟩
        ⟨.closed, [], true, 0, 0, 0, [], {(([0] : List Item), 1)}⟩ :=
      Step.wexit .closed 0 0 0 [] (wtHead ⟨[([0], 1)], 0, []⟩ ::ₘ 0)
    exact ((((((Relation.ReflTransGen.single h1).tail h2).tail h3).tail
      h4).tail h5).tail h6).tail h7
  have h := c3_parallel_matches_sequential [([0], 1)] 0 1 1 1
    ⟨.closed, [], true, 0, 0, 0, [], {(([0] : List Item), 1)}⟩
    (by decide) hR (by decide)
  exact ⟨h.1, h.2 [([0], 1), ([1], 1)] [([1], 1), ([0], 1)] 2 0 0
    (List.Perm.swap _ _ _) (by decide)⟩

/-- C9: from any reachable configuration of the scheduler (on a tree with
at least one frequent item — otherwise the master panics, see C2): (i) a
non-terminal configuration always has an enabled step, even with full
channel buffers; (ii) while tasks remain or jobs are outstanding, the
master stays in its loop; (iii) the loop is left, with `toWorker` closed,
only from an empty stack with zero outstanding jobs; (iv) from that exact
configuration the master can finish and close; (v) after the close the
system is terminal exactly when every worker has exited. -/
theorem c9_scheduler (tree : FPTreeM) (mcnt CW CM W : Nat) (s : Sys)
    (hCW : 1 ≤ CW) (hCM : 1 ≤ CM) (hW : 1 ≤ W)
    (hne : frequentItemsInTree tree mcnt ≠ [])
    (hR : Reachable mcnt CW CM (initSys tree mcnt W) s) :
    (¬ Terminal s → ∃ s2, Step mcnt CW CM s s2) ∧
    (∀ s2, Step mcnt CW CM s s2 → ∀ ts n, s.mstate = .loop ts n →
      (ts ≠ [] ∨ n ≠ 0) → ∃ ts2 n2, s2.mstate = .loop ts2 n2) ∧
    (∀ s2, Step mcnt CW CM s s2 → s.mstate ≠ .closed →
      s2.mstate = .closed → s.mstate = .loop [] 0 ∧ s2.wcClosed = true) ∧
    (s.mstate = .loop [] 0 → ∃ s2, Step mcnt CW CM s s2 ∧
      s2.mstate = .closed ∧ s2.wcClosed = true) ∧
    (s.mstate = .closed → (Terminal s ↔ s.idle = 0)) := by
  have hI : SysInv W s := inv_reachable (inv_init tree mcnt W hne) hR
  refine ⟨fun hT => progress hCW hCM hW hI hT, ?_, ?_, ?_, ?_⟩
  · intro s2 hstep ts n hms hwork
    cases hstep with
    | dispatch t ts' n' wc idle busy pend mcq out i rest hitems hlen =>
        exact ⟨_, _, rfl⟩
    | absorb tasks n' wc idle busy pend m mcq out =>
        exact ⟨_, _, rfl⟩
    | finish wc idle busy pend mcq out =>
        dsimp only at hms
        cases hms
        rcases hwork with h | h
        · exact absurd rfl h
        · exact absurd rfl h
    | crash t ts' n' wc idle busy pend mcq out hitems =>
        exact absurd hitems (by
          have := hI.goodTasks
          dsimp only [tasksOf] at this
          exact this t (List.mem_cons_self _ _))
    | wrecv ms w wcq b idle busy pend mcq out =>
        exact ⟨ts, n, hms⟩
    | wcompute ms wcq b idle w busyRest pend mcq out =>
        exact ⟨ts, n, hms⟩
    | wsend ms wcq b idle busy m pendRest mcq out hlen =>
        exact ⟨ts, n, hms⟩
    | wexit ms idle busy pend mcq out =>
        exact ⟨ts, n, hms⟩
  · intro s2 hstep hno hcl
    cases hstep with
    | dispatch t ts' n' wc idle busy pend mcq out i rest hitems hlen =>
        cases hcl
    | absorb tasks n' wc idle busy pend m mcq out =>
        cases hcl
    | finish wc idle busy pend mcq out =>
        exact ⟨rfl, rfl⟩
    | crash t ts' n' wc idle busy pend mcq out hitems =>
        cases hcl
    | wrecv ms w wcq b idle busy pend mcq out =>
        exact absurd hcl hno
    | wcompute ms wcq b idle w busyRest pend mcq out =>
        exact absurd hcl hno
    | wsend ms wcq b idle busy m pendRest mcq out hlen =>
        exact absurd hcl hno
    | wexit ms idle busy pend mcq out =>
        exact absurd hcl hno
  · intro hms
    obtain ⟨ms, wc, b, idle, busy, pend, mcq, out⟩ := s
    dsimp only at hms
    subst hms
    have hb : b = false := hI.loopOpen [] 0 rfl
    subst hb
    exact ⟨_, Step.finish wc idle busy pend mcq out, rfl, rfl⟩
  · intro hcl
    obtain ⟨hwc, hbusy, hpend, hmc⟩ := hI.closedEmpty hcl
    unfold Terminal
    rw [hcl, hwc, hbusy, hpend, hmc]
    simp

/-- Witness for C9 at a concrete reachable configuration: the initial state
on the one-transaction tree with one worker and capacity-1 channels is not
terminal and can step. -/
theorem c9_witness :
    ¬ Terminal (initSys [([0], 1)] 0 1) ∧
    (∃ s2, Step 0 1 1 (initSys [([0], 1)] 0 1) s2) := by
  have h := c9_scheduler [([0], 1)] 0 1 1 1 (initSys [([0], 1)] 0 1)
    le_rfl le_rfl le_rfl (by decide) Relation.ReflTransGen.refl
  exact ⟨by decide, h.1 (by decide)⟩

/-- Witness for C2: the one step the model allows from the empty-input
initial configuration is the panic. -/
theorem c2_witness :
    ¬ Terminal (initSys ([] : FPTreeM) 1 28) ∧
    (⟨.crashed, [], false, 28, 0, 0, [], 0⟩ : Sys).mstate = .crashed := by
  refine ⟨c2_empty_input.2.2.2.2.1, ?_⟩
  exact c2_empty_input.2.2.2.2.2.1 ⟨.crashed, [], false, 28, 0, 0, [], 0⟩
    (Step.crash ⟨[], [], []⟩ [] 0 [] 28 0 0 [] 0 rfl)
